import Mathlib

/-!
Shallow embedding of `src/python/core/feature_extractor.py`.

Log lines are lists of characters; per-frame score values are Python floats,
modeled as exact rationals extended with the IEEE special values (infinities
and NaN) that numpy division can produce.  Float rounding is not modeled; all
concrete values appearing in the claims are exactly representable.
The Python `assert` failures and `float()` conversion errors are modeled as
values of an explicit error type.
-/

namespace VmafFE

/-- A Python float value: an exact rational, or one of the IEEE special
values (+inf, -inf, NaN) that numpy arithmetic can yield. -/
inductive Val where
  | fin (q : ℚ)
  | pinf
  | ninf
  | nan
deriving DecidableEq, Repr

/-- Is the value finite (neither infinite nor NaN)? -/
def vfinite : Val → Bool
  | .fin _ => true
  | _ => false

/-- IEEE-style addition (the finite/finite case is the only one reached by
the embedded code; special cases follow IEEE 754). -/
def vadd : Val → Val → Val
  | .nan, _ => .nan
  | _, .nan => .nan
  | .fin a, .fin b => .fin (a + b)
  | .fin _, .pinf => .pinf
  | .pinf, .fin _ => .pinf
  | .fin _, .ninf => .ninf
  | .ninf, .fin _ => .ninf
  | .pinf, .pinf => .pinf
  | .ninf, .ninf => .ninf
  | .pinf, .ninf => .nan
  | .ninf, .pinf => .nan

/-- IEEE-style subtraction. -/
def vsub : Val → Val → Val
  | .nan, _ => .nan
  | _, .nan => .nan
  | .fin a, .fin b => .fin (a - b)
  | .fin _, .pinf => .ninf
  | .pinf, .fin _ => .pinf
  | .fin _, .ninf => .pinf
  | .ninf, .fin _ => .ninf
  | .pinf, .pinf => .nan
  | .ninf, .ninf => .nan
  | .pinf, .ninf => .pinf
  | .ninf, .pinf => .ninf

/-- IEEE-style multiplication. -/
def vmul : Val → Val → Val
  | .nan, _ => .nan
  | _, .nan => .nan
  | .fin a, .fin b => .fin (a * b)
  | .fin a, .pinf => if a = 0 then .nan else if 0 < a then .pinf else .ninf
  | .pinf, .fin a => if a = 0 then .nan else if 0 < a then .pinf else .ninf
  | .fin a, .ninf => if a = 0 then .nan else if 0 < a then .ninf else .pinf
  | .ninf, .fin a => if a = 0 then .nan else if 0 < a then .ninf else .pinf
  | .pinf, .pinf => .pinf
  | .ninf, .ninf => .pinf
  | .pinf, .ninf => .ninf
  | .ninf, .pinf => .ninf

/-- IEEE-style division: division of a nonzero finite value by zero yields a
signed infinity (numpy emits a warning but no exception), `0/0` yields NaN. -/
def vdiv : Val → Val → Val
  | .nan, _ => .nan
  | _, .nan => .nan
  | .fin a, .fin b =>
      if b = 0 then (if a = 0 then .nan else if 0 < a then .pinf else .ninf)
      else .fin (a / b)
  | .fin _, .pinf => .fin 0
  | .fin _, .ninf => .fin 0
  | .pinf, .fin b => if 0 ≤ b then .pinf else .ninf
  | .ninf, .fin b => if 0 ≤ b then .ninf else .pinf
  | .pinf, .pinf => .nan
  | .pinf, .ninf => .nan
  | .ninf, .pinf => .nan
  | .ninf, .ninf => .nan

/-- One line of log text. -/
abbrev Line := List Char

/-- Character class `[0-9]` of the index group. -/
def isDig (c : Char) : Bool := '0' ≤ c && c ≤ '9'

/-- Character class `[0-9.-]` of the value group. -/
def isValChar (c : Char) : Bool := isDig c || c == '.' || c == '-'

/-- Strip an exact literal from the front of a line (the anchored literal
part of a `re.match`); `none` when the line does not start with it. -/
def dropPrefixL : List Char → List Char → Option (List Char)
  | [], l => some l
  | _ :: _, [] => none
  | a :: p, b :: l => if a = b then dropPrefixL p l else none

/-- `re.match("{tag}: ([0-9]+) ([0-9.-]+)", line)`: anchored at the start of
the line, both groups maximal-munch, arbitrary trailing content allowed.
Returns the two captured groups (index digits, value characters). -/
def matchIndexed (tag : List Char) (line : Line) : Option (List Char × List Char) :=
  match dropPrefixL (tag ++ [':', ' ']) line with
  | none => none
  | some r1 =>
    let ds := r1.takeWhile isDig
    if ds.isEmpty then none
    else
      match r1.dropWhile isDig with
      | ' ' :: r3 =>
        let vs := r3.takeWhile isValChar
        if vs.isEmpty then none else some (ds, vs)
      | _ => none

/-- Numeric value of a decimal digit character. -/
def digitVal (c : Char) : Nat := c.toNat - 48

/-- `int(s)` on the captured `[0-9]+` group (base-10, big-endian). -/
def natOfDigits (ds : List Char) : Nat := ds.foldl (fun n c => 10 * n + digitVal c) 0

/-- Fractional part value of a digit string `ds`: `0.ds` as a rational. -/
def fracVal (ds : List Char) : ℚ := (natOfDigits ds : ℚ) / (10 ^ ds.length)

/-- Python `float(s)` restricted to strings over `[0-9.-]` (the only strings
the value group can capture): optional leading minus, then digits with at
most one decimal point and at least one digit; anything else raises
`ValueError`, modeled as `none`. -/
def pyFloat (s : List Char) : Option ℚ :=
  let (neg, t) := match s with
    | '-' :: r => (true, r)
    | _ => (false, s)
  let ip := t.takeWhile isDig
  match t.dropWhile isDig with
  | [] =>
      if ip.isEmpty then none
      else some (if neg then -(natOfDigits ip : ℚ) else (natOfDigits ip : ℚ))
  | '.' :: r2 =>
      let fp := r2.takeWhile isDig
      if (r2.dropWhile isDig).isEmpty then
        if ip.isEmpty && fp.isEmpty then none
        else
          let q : ℚ := (natOfDigits ip : ℚ) + fracVal fp
          some (if neg then -q else q)
      else none
  | _ => none

/-- Errors of an extraction run.  In the source these are `AssertionError`
(raised by the `assert` statements, with the data available at the failure
site) and `ValueError` (raised by `float()` on a malformed literal). -/
inductive FXErr where
  | corruptLog (channel : String) (expected found : Nat)
  | emptyResult
  | lengthMismatch (channel : String) (expected found : Nat)
  | valueError (lit : List Char)
  | unsetSection
deriving DecidableEq, Repr

/-- Python dict assignment `d[k] = v`: replace in place if the key is
present, append otherwise. -/
def setKey {β : Type} : List (String × β) → String → β → List (String × β)
  | [], k, v => [(k, v)]
  | (k', w) :: r, k, v => if k' = k then (k, v) :: r else (k', w) :: setKey r k v

/-- `atom_feature_scores_dict[k]` (keys are always initialized before use). -/
def getScores (sd : List (String × List Val)) (k : String) : List Val :=
  (List.lookup k sd).getD []

/-- `atom_feature_idx_dict[k]` (keys are always initialized before use). -/
def getIdx (idxs : List (String × Nat)) (k : String) : Nat :=
  (List.lookup k idxs).getD 0

/-- The two accumulating dictionaries of `_get_feature_scores`. -/
structure PState where
  scores : List (String × List Val)
  idxs : List (String × Nat)
deriving DecidableEq, Repr

/-- Initialization loop: every atom feature starts with an empty score list
and expected index 0. -/
def initPS (feats : List String) : PState :=
  ⟨feats.map (fun f => (f, [])), feats.map (fun f => (f, 0))⟩

/-- `VmafFeatureExtractor.ATOM_FEATURES`. -/
def VMAF_ATOM_FEATURES : List String :=
  ["vif", "adm", "ansnr", "motion", "vif_num", "vif_den", "adm_num", "adm_den", "anpsnr"]

/-- `PsnrFeatureExtractor.ATOM_FEATURES`. -/
def PSNR_ATOM_FEATURES : List String := ["psnr"]

/-- `MomentFeatureExtractor.ATOM_FEATURES`. -/
def MOMENT_ATOM_FEATURES : List String :=
  ["ref1st", "ref2nd", "refvar", "dis1st", "dis2nd", "disvar"]

/-- Body of the inner `for atom_feature in self.ATOM_FEATURES` loop of
`VmafFeatureExtractor._get_feature_scores` for one feature: try the feature's
pattern; on a match check the index against the expected counter
(`assert cur_idx == atom_feature_idx_dict[atom_feature]`), then convert the
value with `float()` and append it, incrementing the counter. -/
def stepFeat (line : Line) (st : PState) (af : String) : Except FXErr PState :=
  match matchIndexed af.toList line with
  | none => .ok st
  | some (ds, vs) =>
    let cur_idx := natOfDigits ds
    if cur_idx = getIdx st.idxs af then
      match pyFloat vs with
      | some v =>
          .ok ⟨setKey st.scores af (getScores st.scores af ++ [Val.fin v]),
               setKey st.idxs af (getIdx st.idxs af + 1)⟩
      | none => .error (.valueError vs)
    else .error (.corruptLog af (getIdx st.idxs af) cur_idx)

/-- Process one line against every atom feature in order (the `continue`
in the source only skips to the next feature, so each line is tried against
all features; the patterns are mutually exclusive for the declared tags). -/
def stepLine (feats : List String) (st : PState) (line : Line) : Except FXErr PState :=
  feats.foldlM (stepFeat line) st

/-- Fold of the line loop starting from a given state. -/
def parseFrom (feats : List String) (st : PState) (lines : List Line) : Except FXErr PState :=
  lines.foldlM (stepLine feats) st

/-- The full line loop of `VmafFeatureExtractor._get_feature_scores`-style
parsing: all lines of the log against all declared features. -/
def parseLines (feats : List String) (lines : List Line) : Except FXErr PState :=
  parseFrom feats (initPS feats) lines

/-- `FeatureExtractor.get_scores_key`. -/
def get_scores_key (ty af : String) : String := ty ++ "_" ++ af ++ "_scores"

/-- `FeatureExtractor.get_score_key`. -/
def get_score_key (ty af : String) : String := ty ++ "_" ++ af ++ "_score"

/-- The `for atom_feature in self.ATOM_FEATURES[1:]` length-assertion loop:
every remaining channel must have length `len0`. -/
def checkRest (sd : List (String × List Val)) (len0 : Nat) : List String → Except FXErr Unit
  | [] => .ok ()
  | af :: rest =>
    if (getScores sd af).length = len0 then checkRest sd len0 rest
    else .error (.lengthMismatch af len0 (getScores sd af).length)

/-- Result-dict construction loop: one scores key per declared feature. -/
def buildDict (ty : String) (feats : List String) (sd : List (String × List Val)) :
    List (String × List Val) :=
  feats.map (fun af => (get_scores_key ty af, getScores sd af))

/-- Assembly step shared by all variants: `len_score != 0` check on the
first declared channel, equal-length check on the rest, then the keyed
result dict.  The declared feature list is never empty in the source. -/
def assembleResult (ty : String) (feats : List String) (sd : List (String × List Val)) :
    Except FXErr (List (String × List Val)) :=
  match feats with
  | [] => .error .emptyResult
  | f0 :: rest =>
    let len0 := (getScores sd f0).length
    if len0 = 0 then .error .emptyResult
    else
      match checkRest sd len0 rest with
      | .error e => .error e
      | .ok _ => .ok (buildDict ty feats sd)

/-- `VmafFeatureExtractor._get_feature_scores` on the lines of the log. -/
def vmafGetFeatureScores (lines : List Line) : Except FXErr (List (String × List Val)) :=
  match parseLines VMAF_ATOM_FEATURES lines with
  | .error e => .error e
  | .ok st => assembleResult "VMAF_feature" VMAF_ATOM_FEATURES st.scores

/-- One iteration of the line loop of
`PsnrFeatureExtractor._get_feature_scores`: state is `(psnr_scores, counter)`. -/
def psnrStep (st : List Val × Nat) (line : Line) : Except FXErr (List Val × Nat) :=
  match matchIndexed ("psnr").toList line with
  | none => .ok st
  | some (ds, vs) =>
    let cur_idx := natOfDigits ds
    if cur_idx = st.2 then
      match pyFloat vs with
      | some v => .ok (st.1 ++ [Val.fin v], st.2 + 1)
      | none => .error (.valueError vs)
    else .error (.corruptLog "psnr" st.2 cur_idx)

/-- The line loop of `PsnrFeatureExtractor._get_feature_scores`. -/
def psnrParseScores (lines : List Line) : Except FXErr (List Val × Nat) :=
  lines.foldlM psnrStep ([], 0)

/-- `PsnrFeatureExtractor._get_feature_scores`: parse, check non-emptiness,
and build the single-key result dict. -/
def psnrGetFeatureScores (lines : List Line) : Except FXErr (List (String × List Val)) :=
  match psnrParseScores lines with
  | .error e => .error e
  | .ok st =>
    if st.1.length = 0 then .error .emptyResult
    else .ok [(get_scores_key "PSNR_feature" "psnr", st.1)]

/-- Parser state of `MomentFeatureExtractor._get_feature_scores`: the
`ref_or_dis` section variable plus the two accumulating dictionaries. -/
structure MState where
  sec : Option String
  scores : List (String × List Val)
  idxs : List (String × Nat)
deriving DecidableEq, Repr

/-- Initial moment parser state (`ref_or_dis = None`, all six features
initialized empty). -/
def initMS : MState :=
  ⟨none, MOMENT_ATOM_FEATURES.map (fun f => (f, [])), MOMENT_ATOM_FEATURES.map (fun f => (f, 0))⟩

/-- The `"=== ref: ==="` section-header literal. -/
def headerRef : Line := ("=== ref: ===").toList

/-- The `"=== dis: ==="` section-header literal. -/
def headerDis : Line := ("=== dis: ===").toList

/-- Shared body of the two indexed-data branches of the moment line loop:
`assert ref_or_dis is not None`, form the channel from section and tag,
check the index, then append the converted value. -/
def momentData (st : MState) (which : String) (ds vs : List Char) : Except FXErr MState :=
  let cur_idx := natOfDigits ds
  match st.sec with
  | none => .error .unsetSection
  | some s =>
    let af := s ++ which
    if cur_idx = getIdx st.idxs af then
      match pyFloat vs with
      | some v =>
          .ok { st with
            scores := setKey st.scores af (getScores st.scores af ++ [Val.fin v]),
            idxs := setKey st.idxs af (getIdx st.idxs af + 1) }
      | none => .error (.valueError vs)
    else .error (.corruptLog af (getIdx st.idxs af) cur_idx)

/-- One iteration of the moment line loop: the two section-header patterns,
then the `1stmoment` and `2ndmoment` indexed-data patterns, else skip. -/
def momentStep (st : MState) (line : Line) : Except FXErr MState :=
  if (dropPrefixL headerRef line).isSome then .ok { st with sec := some "ref" }
  else if (dropPrefixL headerDis line).isSome then .ok { st with sec := some "dis" }
  else
    match matchIndexed ("1stmoment").toList line with
    | some (ds, vs) => momentData st "1st" ds vs
    | none =>
      match matchIndexed ("2ndmoment").toList line with
      | some (ds, vs) => momentData st "2nd" ds vs
      | none => .ok st

/-- The line loop of `MomentFeatureExtractor._get_feature_scores`. -/
def momentParse (lines : List Line) : Except FXErr MState :=
  lines.foldlM momentStep initMS

/-- `get_var = lambda (m1, m2): m2 - m1 * m1` mapped over the zip of the two
moment channels of one stream. -/
def varTransform (m1s m2s : List Val) : List Val :=
  (m1s.zip m2s).map (fun p => vsub p.2 (vmul p.1 p.1))

/-- The two dict assignments computing `refvar` and `disvar` from the four
parsed moment channels. -/
def momentDeriveVars (sd : List (String × List Val)) : List (String × List Val) :=
  let sd1 := setKey sd "refvar" (varTransform (getScores sd "ref1st") (getScores sd "ref2nd"))
  setKey sd1 "disvar" (varTransform (getScores sd1 "dis1st") (getScores sd1 "dis2nd"))

/-- `MomentFeatureExtractor._get_feature_scores`: parse, derive the variance
channels, check lengths, and build the keyed result dict. -/
def momentGetFeatureScores (lines : List Line) : Except FXErr (List (String × List Val)) :=
  match momentParse lines with
  | .error e => .error e
  | .ok st => assembleResult "Moment_feature" MOMENT_ATOM_FEATURES (momentDeriveVars st.scores)

/-- `VmafFeatureExtractor.ADM_CONSTANT`. -/
def ADM_CONSTANT : ℚ := 1000

/-- The numpy expression
`(np.array(adm_num) + ADM_CONSTANT) / (np.array(adm_den) + ADM_CONSTANT)`
on two equal-length channels, elementwise. -/
def admTransform (nums dens : List Val) : List Val :=
  (nums.zip dens).map
    (fun p => vdiv (vadd p.1 (Val.fin ADM_CONSTANT)) (vadd p.2 (Val.fin ADM_CONSTANT)))

/-- `VmafFeatureExtractor._post_process_result`: replace the `adm` entry of
the result dict with the ratio-derived channel.  Missing keys (a `KeyError`
in Python) and non-broadcastable lengths (a numpy error) are modeled as
`none`; assembled results always have both keys with equal lengths. -/
def postProcessResult (d : List (String × List Val)) : Option (List (String × List Val)) :=
  match List.lookup (get_scores_key "VMAF_feature" "adm_num") d,
        List.lookup (get_scores_key "VMAF_feature" "adm_den") d with
  | some nums, some dens =>
    if nums.length = dens.length then
      some (setKey d (get_scores_key "VMAF_feature" "adm") (admTransform nums dens))
    else none
  | _, _ => none

/-! Specification-side definitions used to state the claims. -/

/-- The (index, value-group) pairs of the lines of a log that match one
channel's indexed-data pattern, in log order. -/
def matchedEntries (af : String) (lines : List Line) : List (Nat × List Char) :=
  lines.filterMap (fun l => (matchIndexed af.toList l).map (fun p => (natOfDigits p.1, p.2)))

/-- The parsed indices carried by one channel's matched lines, in log order. -/
def matchedIdxs (af : String) (lines : List Line) : List Nat :=
  (matchedEntries af lines).map Prod.fst

/-- The float values carried by one channel's matched lines (well-formed
literals only), in log order. -/
def chanValues (af : String) (lines : List Line) : List Val :=
  (matchedEntries af lines).filterMap (fun p => (pyFloat p.2).map Val.fin)

/-- The first declared channel whose pattern matches a line, with the parsed
index and the value group; `none` when the line matches no declared pattern. -/
def lineMatchOf (feats : List String) (l : Line) : Option (String × Nat × List Char) :=
  match feats with
  | [] => none
  | f :: rest =>
    match matchIndexed f.toList l with
    | some p => some (f, natOfDigits p.1, p.2)
    | none => lineMatchOf rest l

/-- A line is unexceptional for the parser given the lines already seen:
either it matches no declared pattern, or its index equals the channel's
expected-next counter and its value group is a well-formed float literal. -/
def lineFineB (feats : List String) (done : List Line) (l : Line) : Bool :=
  match lineMatchOf feats l with
  | none => true
  | some (f, i, vs) => (i == (matchedIdxs f done).length) && (pyFloat vs).isSome

/-- Did the computation end without an error? -/
def isOkE {ε α : Type} : Except ε α → Bool
  | .ok _ => true
  | .error _ => false

/-- No declared tag's anchored pattern literal is a proper prefix of
another's, so a line matches at most one declared pattern (decidable). -/
def tagsExclusive (feats : List String) : Bool :=
  feats.all (fun f => feats.all (fun g =>
    f == g || !(dropPrefixL (f.toList ++ [':', ' ']) (g.toList ++ [':', ' '])).isSome))

/-- A decimal digit as a character (digits are always < 10 where used). -/
def digitChar : Nat → Char
  | 0 => '0' | 1 => '1' | 2 => '2' | 3 => '3' | 4 => '4'
  | 5 => '5' | 6 => '6' | 7 => '7' | 8 => '8' | _ => '9'

/-- Standard base-10 rendering of a natural number, as `str(i)` writes it. -/
def renderNat (n : Nat) : List Char :=
  if n = 0 then ['0'] else (Nat.digits 10 n).reverse.map digitChar

/-- A synthetic well-formed indexed data line `"psnr: <i> <w>"`. -/
def psnrLine (i : Nat) (w : List Char) : Line :=
  ("psnr: ").toList ++ renderNat i ++ ' ' :: w

/-- The synthetic log of value literals `ws` with consecutive indices
starting at `k`. -/
def genPsnrLines (k : Nat) : List (List Char) → List Line
  | [] => []
  | w :: ws => psnrLine k w :: genPsnrLines (k + 1) ws

/-- Every (extractor type, atom feature) pair declared in the source. -/
def declaredPairs : List (String × String) :=
  VMAF_ATOM_FEATURES.map (fun f => ("VMAF_feature", f))
    ++ PSNR_ATOM_FEATURES.map (fun f => ("PSNR_feature", f))
    ++ MOMENT_ATOM_FEATURES.map (fun f => ("Moment_feature", f))

/-- Does a line match either moment indexed-data pattern?  Returns the tag
suffix (`"1st"` or `"2nd"`), the parsed index, and the value group. -/
def momentLineMatch (l : Line) : Option (String × Nat × List Char) :=
  match matchIndexed ("1stmoment").toList l with
  | some p => some ("1st", natOfDigits p.1, p.2)
  | none =>
    match matchIndexed ("2ndmoment").toList l with
    | some p => some ("2nd", natOfDigits p.1, p.2)
    | none => none

/-- Does a line match one of the two section-header patterns? -/
def isMomentHeader (l : Line) : Bool :=
  (dropPrefixL headerRef l).isSome || (dropPrefixL headerDis l).isSome

/-- A post-processing input (as assembled for one frame) whose
`adm_den[0] + 1000` is zero: `adm_num = [0.0]`, `adm_den = [-1000.0]`. -/
def c2Dict : List (String × List Val) :=
  [(get_scores_key "VMAF_feature" "adm", [Val.fin 1]),
   (get_scores_key "VMAF_feature" "adm_num", [Val.fin 0]),
   (get_scores_key "VMAF_feature" "adm_den", [Val.fin (-1000)])]

/-- Parser invariant relating a state to the prefix of lines already
processed: each declared channel holds exactly the values of its matched
lines, its counter equals the number of matched lines, and the indices its
matched lines carried are exactly `0, 1, ..., count-1` in order. -/
def Inv (feats : List String) (lines : List Line) (st : PState) : Prop :=
  ∀ f ∈ feats,
    List.lookup f st.scores = some (chanValues f lines)
    ∧ List.lookup f st.idxs = some ((matchedIdxs f lines).length)
    ∧ matchedIdxs f lines = List.range ((matchedIdxs f lines).length)

/-! Basic lemmas: dictionaries, prefixes, the `Except` monad. -/

lemma toList_eq (s : String) : s.toList = s.data := rfl

instance {ε α : Type} [DecidableEq ε] [DecidableEq α] : DecidableEq (Except ε α) := fun x y =>
  match x, y with
  | .ok a, .ok b =>
    if h : a = b then .isTrue (by rw [h]) else .isFalse (fun hc => h (Except.ok.inj hc))
  | .error e, .error e2 =>
    if h : e = e2 then .isTrue (by rw [h]) else .isFalse (fun hc => h (Except.error.inj hc))
  | .ok _, .error _ => .isFalse (fun hc => Except.noConfusion hc)
  | .error _, .ok _ => .isFalse (fun hc => Except.noConfusion hc)

lemma lookup_setKey_self {β : Type} (d : List (String × β)) (k : String) (v : β) :
    List.lookup k (setKey d k v) = some v := by
  induction d with
  | nil => simp [setKey, List.lookup]
  | cons e r ih =>
    obtain ⟨k', w⟩ := e
    by_cases h : k' = k
    · simp [setKey, h, List.lookup]
    · have hb : (k == k') = false := beq_eq_false_iff_ne.mpr (Ne.symm h)
      simp [setKey, h, List.lookup, hb, ih]

lemma lookup_setKey_ne {β : Type} (d : List (String × β)) {k k' : String} (v : β)
    (h : k' ≠ k) : List.lookup k' (setKey d k v) = List.lookup k' d := by
  have hb : (k' == k) = false := beq_eq_false_iff_ne.mpr h
  induction d with
  | nil => simp [setKey, List.lookup, hb]
  | cons e r ih =>
    obtain ⟨k'', w⟩ := e
    by_cases h2 : k'' = k
    · subst h2
      simp [setKey, List.lookup, hb]
    · simp [setKey, h2, List.lookup, ih]

lemma map_fst_setKey {β : Type} (d : List (String × β)) (k : String) (v : β)
    (h : k ∈ d.map Prod.fst) : (setKey d k v).map Prod.fst = d.map Prod.fst := by
  induction d with
  | nil => simp at h
  | cons e r ih =>
    obtain ⟨k', w⟩ := e
    by_cases h2 : k' = k
    · simp [setKey, h2]
    · simp only [List.map_cons, List.mem_cons] at h
      rcases h with h | h

      · exact absurd h.symm h2
      · simp [setKey, h2, ih h]

lemma getScores_setKey_self (sd : List (String × List Val)) (k : String) (v : List Val) :
    getScores (setKey sd k v) k = v := by
  simp [getScores, lookup_setKey_self]

lemma getScores_setKey_ne (sd : List (String × List Val)) {k k' : String} (v : List Val)
    (h : k' ≠ k) : getScores (setKey sd k v) k' = getScores sd k' := by
  simp [getScores, lookup_setKey_ne _ _ h]

lemma getIdx_setKey_self (idxs : List (String × Nat)) (k : String) (v : Nat) :
    getIdx (setKey idxs k v) k = v := by
  simp [getIdx, lookup_setKey_self]

lemma getIdx_setKey_ne (idxs : List (String × Nat)) {k k' : String} (v : Nat)
    (h : k' ≠ k) : getIdx (setKey idxs k v) k' = getIdx idxs k' := by
  simp [getIdx, lookup_setKey_ne _ _ h]

lemma lookup_init {β : Type} (feats : List String) (c : β) {f : String} (h : f ∈ feats) :
    List.lookup f (feats.map (fun g => (g, c))) = some c := by
  induction feats with
  | nil => simp at h
  | cons g rest ih =>
    rcases List.mem_cons.mp h with h | h
    · subst h
      simp [List.lookup]
    · by_cases h2 : f = g
      · subst h2
        simp [List.lookup]
      · have hb : (f == g) = false := beq_eq_false_iff_ne.mpr h2
        simp [List.lookup, hb, ih h]

lemma dropPrefixL_eq_some {p l r : List Char} :
    dropPrefixL p l = some r ↔ l = p ++ r := by
  induction p generalizing l with
  | nil =>
    simp [dropPrefixL, eq_comm]
  | cons a p ih =>
    cases l with
    | nil => simp [dropPrefixL]
    | cons b l =>
      by_cases h : a = b
      · subst h
        simp [dropPrefixL, ih]
      · simp [dropPrefixL, h, Ne.symm h]

lemma dropPrefixL_append (p r : List Char) : dropPrefixL p (p ++ r) = some r :=
  dropPrefixL_eq_some.mpr rfl

lemma dropPrefixL_total {p1 p2 l : List Char}
    (h1 : (dropPrefixL p1 l).isSome) (h2 : (dropPrefixL p2 l).isSome) :
    (dropPrefixL p1 p2).isSome ∨ (dropPrefixL p2 p1).isSome := by
  induction p1 generalizing p2 l with
  | nil => left; simp [dropPrefixL]
  | cons a p1 ih =>
    cases p2 with
    | nil => right; simp [dropPrefixL]
    | cons b p2 =>
      cases l with
      | nil => simp [dropPrefixL] at h1
      | cons c l =>
        by_cases ha : a = c
        · by_cases hb : b = c
          · subst ha; subst hb
            simp only [dropPrefixL, if_pos rfl] at h1 h2 ⊢
            exact ih h1 h2
          · simp [dropPrefixL, hb] at h2
        · simp [dropPrefixL, ha] at h1

lemma ok_bind {ε α β : Type} (a : α) (f : α → Except ε β) :
    (Except.ok a >>= f) = f a := rfl

lemma err_bind {ε α β : Type} (e : ε) (f : α → Except ε β) :
    ((Except.error e : Except ε α) >>= f) = Except.error e := rfl

/-! Parser step lemmas. -/

lemma stepFeat_none {line : Line} {af : String} (st : PState)
    (h : matchIndexed af.toList line = none) : stepFeat line st af = .ok st := by
  have h2 : matchIndexed af.data line = none := h
  simp [stepFeat, h2]

lemma stepFeat_mismatch {line : Line} {af : String} {ds vs : List Char} (st : PState)
    (h : matchIndexed af.toList line = some (ds, vs))
    (hne : natOfDigits ds ≠ getIdx st.idxs af) :
    stepFeat line st af = .error (.corruptLog af (getIdx st.idxs af) (natOfDigits ds)) := by
  have h2 : matchIndexed af.data line = some (ds, vs) := h
  simp [stepFeat, h2, hne]

lemma stepFeat_ok {line : Line} {af : String} {ds vs : List Char} {v : ℚ} (st : PState)
    (h : matchIndexed af.toList line = some (ds, vs))
    (heq : natOfDigits ds = getIdx st.idxs af)
    (hv : pyFloat vs = some v) :
    stepFeat line st af =
      .ok ⟨setKey st.scores af (getScores st.scores af ++ [Val.fin v]),
           setKey st.idxs af (getIdx st.idxs af + 1)⟩ := by
  have h2 : matchIndexed af.data line = some (ds, vs) := h
  simp [stepFeat, h2, heq, hv]

lemma stepFeat_badval {line : Line} {af : String} {ds vs : List Char} (st : PState)
    (h : matchIndexed af.toList line = some (ds, vs))
    (heq : natOfDigits ds = getIdx st.idxs af)
    (hv : pyFloat vs = none) :
    stepFeat line st af = .error (.valueError vs) := by
  have h2 : matchIndexed af.data line = some (ds, vs) := h
  simp [stepFeat, h2, heq, hv]

lemma lineMatchOf_eq_none {feats : List String} {l : Line} (h : lineMatchOf feats l = none) :
    ∀ f ∈ feats, matchIndexed f.toList l = none := by
  induction feats with
  | nil => simp
  | cons g rest ih =>
    intro f hf
    cases hm : matchIndexed g.data l with
    | some p => simp [lineMatchOf, toList_eq, hm] at h
    | none =>
      simp only [lineMatchOf, toList_eq, hm] at h
      rcases List.mem_cons.mp hf with h2 | h2
      · subst h2
        exact hm
      · exact ih h f h2

lemma lineMatchOf_some {feats : List String} {l : Line} {f : String} {i : Nat} {vs : List Char}
    (h : lineMatchOf feats l = some (f, i, vs)) :
    f ∈ feats ∧ ∃ ds, matchIndexed f.toList l = some (ds, vs) ∧ natOfDigits ds = i := by
  induction feats with
  | nil => simp [lineMatchOf] at h
  | cons g rest ih =>
    cases hm : matchIndexed g.data l with
    | some p =>
      obtain ⟨ds0, vs0⟩ := p
      simp only [lineMatchOf, toList_eq, hm] at h
      simp only [Option.some.injEq, Prod.mk.injEq] at h
      obtain ⟨hgf, hii, hvv⟩ := h
      subst hgf
      subst hii
      subst hvv
      exact ⟨List.mem_cons_self _ _, ds0, hm, rfl⟩
    | none =>
      simp only [lineMatchOf, toList_eq, hm] at h
      obtain ⟨hmem, hrest⟩ := ih h
      exact ⟨List.mem_cons_of_mem _ hmem, hrest⟩

lemma matchIndexed_pref {tag : List Char} {l : Line} {x : List Char × List Char}
    (h : matchIndexed tag l = some x) : (dropPrefixL (tag ++ [':', ' ']) l).isSome := by
  unfold matchIndexed at h
  cases hd : dropPrefixL (tag ++ [':', ' ']) l with
  | none => rw [hd] at h; simp at h
  | some r => simp [hd]

lemma tagsExclusive_unamb {feats : List String} (hx : tagsExclusive feats = true) :
    ∀ (l : Line) (f g : String), f ∈ feats → g ∈ feats →
      (matchIndexed f.toList l).isSome → (matchIndexed g.toList l).isSome → f = g := by
  intro l f g hf hg hmf hmg
  by_contra hne
  obtain ⟨xf, hxf⟩ := Option.isSome_iff_exists.mp hmf
  obtain ⟨xg, hxg⟩ := Option.isSome_iff_exists.mp hmg
  have htot := dropPrefixL_total (matchIndexed_pref hxf) (matchIndexed_pref hxg)
  have hall := List.all_eq_true.mp hx
  have hfg := List.all_eq_true.mp (hall f hf) g hg
  have hgf := List.all_eq_true.mp (hall g hg) f hf
  have hbfg : (f == g) = false := beq_eq_false_iff_ne.mpr hne
  have hbgf : (g == f) = false := beq_eq_false_iff_ne.mpr (Ne.symm hne)
  simp only [hbfg, Bool.false_or, Bool.not_eq_true'] at hfg
  simp only [hbgf, Bool.false_or, Bool.not_eq_true'] at hgf
  rcases htot with ht | ht
  · rw [hfg] at ht
    exact absurd ht (by simp)
  · rw [hgf] at ht
    exact absurd ht (by simp)

lemma stepLine_all_none {feats : List String} {l : Line} (st : PState)
    (h : ∀ g ∈ feats, matchIndexed g.toList l = none) :
    stepLine feats st l = .ok st := by
  induction feats generalizing st with
  | nil => rfl
  | cons g rest ih =>
    simp only [stepLine, List.foldlM_cons]
    rw [stepFeat_none st (h g (List.mem_cons_self g rest)), ok_bind]
    exact ih st (fun g' hg' => h g' (List.mem_cons_of_mem _ hg'))

lemma stepLine_no_match {feats : List String} {l : Line} (st : PState)
    (h : lineMatchOf feats l = none) : stepLine feats st l = .ok st :=
  stepLine_all_none st (lineMatchOf_eq_none h)

lemma stepLine_eq_stepFeat {feats : List String}
    (hU : ∀ (l : Line) (f g : String), f ∈ feats → g ∈ feats →
      (matchIndexed f.toList l).isSome → (matchIndexed g.toList l).isSome → f = g)
    (hnd : feats.Nodup) {l : Line} {f : String} {i : Nat} {vs : List Char}
    (h : lineMatchOf feats l = some (f, i, vs)) (st : PState) :
    stepLine feats st l = stepFeat l st f := by
  induction feats generalizing st with
  | nil => simp [lineMatchOf] at h
  | cons g rest ih =>
    obtain ⟨hgm, hndr⟩ := List.nodup_cons.mp hnd
    cases hm : matchIndexed g.data l with
    | some p =>
      have hfg : g = f := by
        obtain ⟨ds0, vs0⟩ := p
        simp only [lineMatchOf, toList_eq, hm] at h
        simp only [Option.some.injEq, Prod.mk.injEq] at h
        exact h.1
      subst hfg
      have hrest : ∀ g' ∈ rest, matchIndexed g'.toList l = none := by
        intro g' hg'
        cases hmg : matchIndexed g'.toList l with
        | none => rfl
        | some q =>
          have hq : g' = g := hU l g' g (List.mem_cons_of_mem _ hg') (List.mem_cons_self _ _)
            (by rw [hmg]; rfl) (by rw [show matchIndexed g.toList l = some p from hm]; rfl)
          subst hq
          exact absurd hg' hgm
      simp only [stepLine, List.foldlM_cons]
      cases hsf : stepFeat l st g with
      | ok s2 =>
        rw [ok_bind]
        exact stepLine_all_none s2 hrest
      | error e => rfl
    | none =>
      have h' : lineMatchOf rest l = some (f, i, vs) := by
        simp only [lineMatchOf, toList_eq, hm] at h
        exact h
      simp only [stepLine, List.foldlM_cons]
      rw [stepFeat_none st (show matchIndexed g.toList l = none from hm), ok_bind]
      exact ih (fun l' f' g' hf' hg' => hU l' f' g' (List.mem_cons_of_mem _ hf')
        (List.mem_cons_of_mem _ hg')) hndr h' st

/-! Invariant lemmas for the multi-channel line loop. -/

lemma matched_append_none {af : String} (lines : List Line) {l : Line}
    (h : matchIndexed af.toList l = none) :
    matchedEntries af (lines ++ [l]) = matchedEntries af lines := by
  simp [matchedEntries, List.filterMap_append, List.filterMap_cons,
    show matchIndexed af.data l = none from h]

lemma matched_append_some {af : String} (lines : List Line) {l : Line} {ds vs : List Char}
    (h : matchIndexed af.toList l = some (ds, vs)) :
    matchedEntries af (lines ++ [l]) = matchedEntries af lines ++ [(natOfDigits ds, vs)] := by
  simp [matchedEntries, List.filterMap_append, List.filterMap_cons,
    show matchIndexed af.data l = some (ds, vs) from h]

lemma inv_step {feats : List String}
    (hU : ∀ (l : Line) (f g : String), f ∈ feats → g ∈ feats →
      (matchIndexed f.toList l).isSome → (matchIndexed g.toList l).isSome → f = g)
    (hnd : feats.Nodup) {lines : List Line} {st st2 : PState} {l : Line}
    (hInv : Inv feats lines st) (hok : stepLine feats st l = .ok st2) :
    Inv feats (lines ++ [l]) st2 := by
  cases hlm : lineMatchOf feats l with
  | none =>
    rw [stepLine_no_match st hlm] at hok
    obtain rfl : st = st2 := by injection hok
    intro f hf
    obtain ⟨h1, h2, h3⟩ := hInv f hf
    have he := matched_append_none lines (lineMatchOf_eq_none hlm f hf)
    refine ⟨?_, ?_, ?_⟩
    · simp [chanValues, he, h1]
    · simp [matchedIdxs, he, h2]
    · simpa [matchedIdxs, he] using h3
  | some x =>
    obtain ⟨f, i, vs⟩ := x
    obtain ⟨hfmem, ds, hds, hdsi⟩ := lineMatchOf_some hlm
    rw [stepLine_eq_stepFeat hU hnd hlm st] at hok
    by_cases hidx : natOfDigits ds = getIdx st.idxs f
    · cases hpf : pyFloat vs with
      | none =>
        rw [stepFeat_badval st hds hidx hpf] at hok
        exact absurd hok (by simp)
      | some v =>
        rw [stepFeat_ok st hds hidx hpf] at hok
        obtain rfl : (⟨setKey st.scores f (getScores st.scores f ++ [Val.fin v]),
            setKey st.idxs f (getIdx st.idxs f + 1)⟩ : PState) = st2 := by injection hok
        obtain ⟨hs1, hs2, hs3⟩ := hInv f hfmem
        have hgsc : getScores st.scores f = chanValues f lines := by
          simp [getScores, hs1]
        have hgid : getIdx st.idxs f = (matchedIdxs f lines).length := by
          simp [getIdx, hs2]
        intro g hg
        by_cases hgf : g = f
        · subst hgf
          have he := matched_append_some lines hds
          refine ⟨?_, ?_, ?_⟩
          · rw [lookup_setKey_self, hgsc]
            simp [chanValues, matchedIdxs, he, hpf]
          · rw [lookup_setKey_self, hgid]
            simp [matchedIdxs, he]
          · simp only [matchedIdxs, he, List.map_append, List.length_append]
            rw [show (matchedEntries g lines).map Prod.fst = matchedIdxs g lines from rfl,
              hs3]
            simp [hidx, hgid, List.range_succ, matchedIdxs]
        · obtain ⟨h1, h2, h3⟩ := hInv g hg
          have hgm : matchIndexed g.toList l = none := by
            cases hq : matchIndexed g.toList l with
            | none => rfl
            | some q =>
              exact absurd (hU l g f hg hfmem (by rw [hq]; rfl) (by rw [hds]; rfl)) hgf
          have he := matched_append_none lines hgm
          refine ⟨?_, ?_, ?_⟩
          · simp [lookup_setKey_ne _ _ hgf, chanValues, he, h1]
          · simp [lookup_setKey_ne _ _ hgf, matchedIdxs, he, h2]
          · simpa [matchedIdxs, he] using h3
    · rw [stepFeat_mismatch st hds hidx] at hok
      exact absurd hok (by simp)

lemma inv_init (feats : List String) : Inv feats [] (initPS feats) := by
  intro f hf
  refine ⟨?_, ?_, ?_⟩ <;>
    simp [initPS, lookup_init feats _ hf, chanValues, matchedIdxs, matchedEntries]

lemma parse_ok_inv {feats : List String}
    (hU : ∀ (l : Line) (f g : String), f ∈ feats → g ∈ feats →
      (matchIndexed f.toList l).isSome → (matchIndexed g.toList l).isSome → f = g)
    (hnd : feats.Nodup) :
    ∀ (lines : List Line) (st2 : PState),
      parseLines feats lines = .ok st2 → Inv feats lines st2 := by
  intro lines
  induction lines using List.reverseRecOn with
  | nil =>
    intro st2 h
    obtain rfl : initPS feats = st2 := by injection h
    exact inv_init feats
  | append_singleton ls l ih =>
    intro st2 h
    rw [parseLines, parseFrom, List.foldlM_append] at h
    cases hp : List.foldlM (stepLine feats) (initPS feats) ls with
    | error e => rw [hp, err_bind] at h; exact absurd h (by simp)
    | ok st1 =>
      rw [hp, ok_bind] at h
      simp only [List.foldlM_cons, List.foldlM_nil] at h
      cases hs : stepLine feats st1 l with
      | error e => rw [hs, err_bind] at h; exact absurd h (by simp)
      | ok s2 =>
        rw [hs, ok_bind] at h
        obtain rfl : s2 = st2 := by injection h
        exact inv_step hU hnd (ih st1 hp) hs

lemma fine_step_ok {feats : List String}
    (hU : ∀ (l : Line) (f g : String), f ∈ feats → g ∈ feats →
      (matchIndexed f.toList l).isSome → (matchIndexed g.toList l).isSome → f = g)
    (hnd : feats.Nodup) {done : List Line} {l : Line} {st : PState}
    (hInv : Inv feats done st) (hf : lineFineB feats done l = true) :
    ∃ st2, stepLine feats st l = .ok st2 := by
  cases hlm : lineMatchOf feats l with
  | none => exact ⟨st, stepLine_no_match st hlm⟩
  | some x =>
    obtain ⟨f, i, vs⟩ := x
    obtain ⟨hfmem, ds, hds, hdsi⟩ := lineMatchOf_some hlm
    simp only [lineFineB, hlm, Bool.and_eq_true, beq_iff_eq] at hf
    obtain ⟨hi, hvs⟩ := hf
    obtain ⟨v, hv⟩ := Option.isSome_iff_exists.mp hvs
    have hgid : getIdx st.idxs f = (matchedIdxs f done).length := by
      simp [getIdx, (hInv f hfmem).2.1]
    have hidx : natOfDigits ds = getIdx st.idxs f := by rw [hdsi, hi, hgid]
    exact ⟨_, (stepLine_eq_stepFeat hU hnd hlm st).trans (stepFeat_ok st hds hidx hv)⟩

lemma fine_prefix_ok {feats : List String}
    (hU : ∀ (l : Line) (f g : String), f ∈ feats → g ∈ feats →
      (matchIndexed f.toList l).isSome → (matchIndexed g.toList l).isSome → f = g)
    (hnd : feats.Nodup) :
    ∀ (todo done : List Line) (st : PState), Inv feats done st →
      (∀ j, j < todo.length → lineFineB feats (done ++ todo.take j) (todo.getD j []) = true) →
      ∃ st2, parseFrom feats st todo = .ok st2 ∧ Inv feats (done ++ todo) st2 := by
  intro todo
  induction todo with
  | nil =>
    intro done st hInv hfine
    exact ⟨st, rfl, by simpa using hInv⟩
  | cons l rest ih =>
    intro done st hInv hfine
    have h0 : lineFineB feats done l = true := by
      have := hfine 0 (by simp)
      simpa using this
    obtain ⟨st1, hst1⟩ := fine_step_ok hU hnd hInv h0
    have hInv1 := inv_step hU hnd hInv hst1
    have hfine1 : ∀ j, j < rest.length →
        lineFineB feats ((done ++ [l]) ++ rest.take j) (rest.getD j []) = true := by
      intro j hj
      have := hfine (j + 1) (by simpa using Nat.succ_lt_succ hj)
      simpa [List.take_succ_cons, List.append_assoc] using this
    obtain ⟨st2, hp, hI⟩ := ih (done ++ [l]) st1 hInv1 hfine1
    refine ⟨st2, ?_, by simpa [List.append_assoc] using hI⟩
    rw [parseFrom, List.foldlM_cons, hst1, ok_bind]
    exact hp

lemma getD_of_lt {α : Type} (l : List α) (d : α) {k : Nat} (h : k < l.length) :
    l.getD k d = l[k] := by
  simp [List.getD, List.getElem?_eq_getElem h]

lemma vmaf_unamb : ∀ (l : Line) (f g : String),
    f ∈ VMAF_ATOM_FEATURES → g ∈ VMAF_ATOM_FEATURES →
    (matchIndexed f.toList l).isSome → (matchIndexed g.toList l).isSome → f = g :=
  tagsExclusive_unamb (by decide)

lemma vmaf_nodup : VMAF_ATOM_FEATURES.Nodup := by decide

/-- C1: for the VMAF-feature parser, a successful parse implies every
declared channel's matched lines carried indices exactly `0..L-1` in order;
and if, at the first offending line (all earlier lines being unexceptional),
some channel's parsed index differs from that channel's expected-next
counter, parsing fails with the corrupt-log error identifying the channel,
the expected index, and the found index. -/
theorem vmaf_index_continuity (lines : List Line) :
    (isOkE (parseLines VMAF_ATOM_FEATURES lines) = true →
      ∀ f ∈ VMAF_ATOM_FEATURES,
        matchedIdxs f lines = List.range ((matchedIdxs f lines).length))
    ∧ (∀ k, k < lines.length → ∀ f i vs,
        (∀ j, j < k → lineFineB VMAF_ATOM_FEATURES (lines.take j) (lines.getD j []) = true) →
        lineMatchOf VMAF_ATOM_FEATURES (lines.getD k []) = some (f, i, vs) →
        i ≠ (matchedIdxs f (lines.take k)).length →
        parseLines VMAF_ATOM_FEATURES lines =
          .error (.corruptLog f ((matchedIdxs f (lines.take k)).length) i)) := by
  constructor
  · intro hok f hf
    cases hp : parseLines VMAF_ATOM_FEATURES lines with
    | error e => rw [hp] at hok; simp [isOkE] at hok
    | ok st => exact ((parse_ok_inv vmaf_unamb vmaf_nodup lines st hp) f hf).2.2
  · intro k hk f i vs hfine hlm hne
    have hkk : k ≤ lines.length := Nat.le_of_lt hk
    have hlen : (lines.take k).length = k := by simp [Nat.min_eq_left hkk]
    have hfine2 : ∀ j, j < (lines.take k).length →
        lineFineB VMAF_ATOM_FEATURES ([] ++ (lines.take k).take j)
          ((lines.take k).getD j []) = true := by
      intro j hj
      rw [hlen] at hj
      have hjl : j < lines.length := Nat.lt_of_lt_of_le hj hkk
      have h1 : (lines.take k).take j = lines.take j := by
        rw [List.take_take, Nat.min_eq_left (Nat.le_of_lt hj)]
      have h2 : (lines.take k).getD j [] = lines.getD j [] := by
        rw [getD_of_lt _ _ (show j < (lines.take k).length by rw [hlen]; exact hj),
          getD_of_lt _ _ hjl]
        exact List.getElem_take ..
      rw [List.nil_append, h1, h2]
      exact hfine j hj
    obtain ⟨stk, hpk, hIk⟩ := fine_prefix_ok vmaf_unamb vmaf_nodup
      (lines.take k) [] (initPS VMAF_ATOM_FEATURES) (inv_init VMAF_ATOM_FEATURES) hfine2
    have hIk2 : Inv VMAF_ATOM_FEATURES (lines.take k) stk := by simpa using hIk
    obtain ⟨hfmem, ds, hds, hdsi⟩ := lineMatchOf_some hlm
    have hgid : getIdx stk.idxs f = (matchedIdxs f (lines.take k)).length := by
      simp [getIdx, (hIk2 f hfmem).2.1]
    have hstep : stepLine VMAF_ATOM_FEATURES stk (lines.getD k []) =
        .error (.corruptLog f ((matchedIdxs f (lines.take k)).length) i) := by
      rw [stepLine_eq_stepFeat vmaf_unamb vmaf_nodup hlm stk]
      rw [stepFeat_mismatch stk hds (by rw [hdsi, hgid]; exact hne), hgid, hdsi]
    have hsplit : lines = lines.take k ++ lines.getD k [] :: lines.drop (k + 1) := by
      conv_lhs => rw [← List.take_append_drop k lines]
      rw [List.drop_eq_getElem_cons hk, getD_of_lt _ _ hk]
    rw [parseLines, parseFrom]
    conv_lhs => rw [hsplit]
    rw [List.foldlM_append]
    rw [show List.foldlM (stepLine VMAF_ATOM_FEATURES) (initPS VMAF_ATOM_FEATURES)
        (lines.take k) = .ok stk from hpk]
    rw [ok_bind, List.foldlM_cons, hstep, err_bind]

/-- Witness for C1 at concrete logs: parsing succeeds on `vif: 0 1.0` with
contiguous indices, and parsing `vif: 3 1.0` fails with the corrupt-log
error naming channel `vif`, expected index 0, found index 3. -/
theorem vmaf_index_continuity_witness :
    matchedIdxs "vif" [("vif: 0 1.0").toList] =
      List.range ((matchedIdxs "vif" [("vif: 0 1.0").toList]).length)
    ∧ parseLines VMAF_ATOM_FEATURES [("vif: 3 1.0").toList] =
      .error (.corruptLog "vif" 0 3) :=
  ⟨(vmaf_index_continuity [("vif: 0 1.0").toList]).1 (by decide) "vif" (by decide),
   (vmaf_index_continuity [("vif: 3 1.0").toList]).2 0 (by decide) "vif" 3
     ("1.0").toList (fun j hj => absurd hj (Nat.not_lt_zero j)) (by decide) (by decide)⟩

/-- C9: inserting a line that matches no declared pattern anywhere in a log
changes neither the parse state nor the final feature-scores result of the
VMAF-feature extractor, and raises no error. -/
theorem unmatched_line_tolerance (pre post : List Line) (l : Line)
    (h : lineMatchOf VMAF_ATOM_FEATURES l = none) :
    parseLines VMAF_ATOM_FEATURES (pre ++ l :: post) =
      parseLines VMAF_ATOM_FEATURES (pre ++ post)
    ∧ vmafGetFeatureScores (pre ++ l :: post) = vmafGetFeatureScores (pre ++ post) := by
  have hpar : parseLines VMAF_ATOM_FEATURES (pre ++ l :: post) =
      parseLines VMAF_ATOM_FEATURES (pre ++ post) := by
    rw [parseLines, parseFrom, parseLines, parseFrom, List.foldlM_append, List.foldlM_append]
    cases hp : List.foldlM (stepLine VMAF_ATOM_FEATURES) (initPS VMAF_ATOM_FEATURES) pre with
    | error e => rw [err_bind, err_bind]
    | ok st =>
      rw [ok_bind, ok_bind, List.foldlM_cons, stepLine_no_match st h, ok_bind]
  exact ⟨hpar, by rw [vmafGetFeatureScores, vmafGetFeatureScores, hpar]⟩

/-- Witness for C9: inserting the non-matching line `echo hello` after a
valid data line leaves both the parse and the result unchanged. -/
theorem unmatched_line_tolerance_witness :
    parseLines VMAF_ATOM_FEATURES ([("vif: 0 1.0").toList] ++ ("echo hello").toList :: []) =
      parseLines VMAF_ATOM_FEATURES ([("vif: 0 1.0").toList] ++ [])
    ∧ vmafGetFeatureScores ([("vif: 0 1.0").toList] ++ ("echo hello").toList :: []) =
      vmafGetFeatureScores ([("vif: 0 1.0").toList] ++ []) :=
  unmatched_line_tolerance [("vif: 0 1.0").toList] [] (("echo hello").toList) (by decide)

/-! Assembly lemmas. -/

lemma checkRest_ok_iff (sd : List (String × List Val)) (len0 : Nat) :
    ∀ rest : List String, checkRest sd len0 rest = .ok () ↔
      ∀ g ∈ rest, (getScores sd g).length = len0 := by
  intro rest
  induction rest with
  | nil => simp [checkRest]
  | cons af r ih =>
    by_cases h : (getScores sd af).length = len0 <;> simp [checkRest, h, ih]

lemma checkRest_err (sd : List (String × List Val)) (len0 : Nat) :
    ∀ (pre : List String) (af : String) (post : List String),
      (∀ g ∈ pre, (getScores sd g).length = len0) →
      (getScores sd af).length ≠ len0 →
      checkRest sd len0 (pre ++ af :: post) =
        .error (.lengthMismatch af len0 (getScores sd af).length) := by
  intro pre
  induction pre with
  | nil =>
    intro af post _ hne
    simp [checkRest, hne]
  | cons g pre ih =>
    intro af post hall hne
    have hg := hall g (List.mem_cons_self g pre)
    simp only [List.cons_append, checkRest, hg, if_pos]
    exact ih af post (fun g2 h2 => hall g2 (List.mem_cons_of_mem _ h2)) hne

/-- C3: assembly succeeds iff every declared channel's sequence has the
same non-zero length as the first declared channel's; an empty first
channel yields the empty-result error, the first channel with a deviating
length yields the length-mismatch error naming it and both lengths, and
every sequence of a produced result has the first channel's positive
length. -/
theorem assembly_length_spec (ty f0 : String) (rest : List String)
    (sd : List (String × List Val)) :
    ((getScores sd f0).length = 0 →
      assembleResult ty (f0 :: rest) sd = .error .emptyResult)
    ∧ (∀ pre af post, rest = pre ++ af :: post →
        (∀ g ∈ pre, (getScores sd g).length = (getScores sd f0).length) →
        (getScores sd af).length ≠ (getScores sd f0).length →
        (getScores sd f0).length ≠ 0 →
        assembleResult ty (f0 :: rest) sd =
          .error (.lengthMismatch af (getScores sd f0).length (getScores sd af).length))
    ∧ (isOkE (assembleResult ty (f0 :: rest) sd) = true ↔
        ((getScores sd f0).length ≠ 0 ∧
          ∀ g ∈ rest, (getScores sd g).length = (getScores sd f0).length))
    ∧ (∀ d, assembleResult ty (f0 :: rest) sd = .ok d →
        ∀ e ∈ d, e.2.length = (getScores sd f0).length ∧ 0 < (getScores sd f0).length) := by
  refine ⟨?_, ?_, ?_, ?_⟩
  · intro h0
    simp [assembleResult, h0]
  · intro pre af post hsplit hall hne h0
    subst hsplit
    simp only [assembleResult, if_neg h0]
    rw [checkRest_err sd _ pre af post hall hne]
  · by_cases h0 : (getScores sd f0).length = 0
    · simp [assembleResult, h0, isOkE]
    · simp only [assembleResult, if_neg h0]
      cases hc : checkRest sd (getScores sd f0).length rest with
      | error e =>
        simp only [isOkE]
        constructor
        · intro hfalse
          exact absurd hfalse (by simp)
        · intro ⟨_, hall⟩
          rw [(checkRest_ok_iff sd _ rest).mpr hall] at hc
          exact absurd hc (by simp)
      | ok u =>
        cases u
        simp only [isOkE]
        exact ⟨fun _ => ⟨h0, (checkRest_ok_iff sd _ rest).mp hc⟩, fun _ => trivial⟩
  · intro d hd e he
    by_cases h0 : (getScores sd f0).length = 0
    · simp [assembleResult, h0] at hd
    · simp only [assembleResult, if_neg h0] at hd
      cases hc : checkRest sd (getScores sd f0).length rest with
      | error er => rw [hc] at hd; exact absurd hd (by simp)
      | ok u =>
        rw [hc] at hd
        obtain rfl : buildDict ty (f0 :: rest) sd = d := by injection hd
        have hall := (checkRest_ok_iff sd _ rest).mp hc
        simp only [buildDict, List.mem_map] at he
        obtain ⟨af, haf, rfl⟩ := he
        refine ⟨?_, Nat.pos_of_ne_zero h0⟩
        rcases List.mem_cons.mp haf with rfl | haf
        · rfl
        · exact hall af haf

/-- Witness for C3: with channel `a` holding one value and channel `b`
empty, assembly fails with the length-mismatch error naming `b`, expected
length 1, found length 0. -/
theorem assembly_length_spec_witness :
    assembleResult "T" ("a" :: ["b"]) [("a", [Val.fin 1]), ("b", [])] =
      .error (.lengthMismatch "b" 1 0) :=
  (assembly_length_spec "T" "a" ["b"] [("a", [Val.fin 1]), ("b", [])]).2.1
    [] "b" [] rfl (fun g hg => absurd hg (List.not_mem_nil g)) (by decide) (by decide)

/-! Post-processing transform lemmas. -/

lemma admTransform_getD : ∀ (ns ds : List ℚ) (i : Nat), i < ns.length →
    ns.length = ds.length →
    (admTransform (ns.map Val.fin) (ds.map Val.fin)).getD i Val.nan =
      vdiv (Val.fin (ns.getD i 0 + 1000)) (Val.fin (ds.getD i 0 + 1000)) := by
  intro ns
  induction ns with
  | nil =>
    intro ds i hi _
    simp at hi
  | cons n ns ih =>
    intro ds i hi hlen
    cases ds with
    | nil => simp at hlen
    | cons d ds =>
      cases i with
      | zero => simp [admTransform, vadd, ADM_CONSTANT]
      | succ j =>
        have hj : j < ns.length := Nat.lt_of_succ_lt_succ hi
        have hlen2 : ns.length = ds.length := by simpa using hlen
        simpa [admTransform] using ih ds j hj hlen2

/-- C4: on equal-length raw channels, the ratio transform produces a channel
of the same length whose entries are `(num[i] + 1000) / (den[i] + 1000)`
(finite whenever the shifted denominator is non-zero), and the two concrete
examples of the specification evaluate as claimed. -/
theorem adm_ratio_spec (nums dens : List ℚ) (h : nums.length = dens.length) :
    (admTransform (nums.map Val.fin) (dens.map Val.fin)).length = nums.length
    ∧ (∀ i, i < nums.length → dens.getD i 0 + 1000 ≠ 0 →
        (admTransform (nums.map Val.fin) (dens.map Val.fin)).getD i Val.nan =
          Val.fin ((nums.getD i 0 + 1000) / (dens.getD i 0 + 1000)))
    ∧ admTransform ([0, 10, 1000].map Val.fin) ([0, 10, 1000].map Val.fin) =
        [Val.fin 1, Val.fin 1, Val.fin 1]
    ∧ admTransform ([0].map Val.fin) ([1000].map Val.fin) = [Val.fin (1/2)] := by
  refine ⟨?_, ?_, by norm_num [admTransform, vadd, vdiv, ADM_CONSTANT],
    by norm_num [admTransform, vadd, vdiv, ADM_CONSTANT]⟩
  · simp [admTransform, h]
  · intro i hi hden
    rw [admTransform_getD nums dens i hi h]
    have hden2 : dens[i]?.getD 0 + 1000 ≠ 0 := by simpa [List.getD] using hden
    simp [vdiv, hden2]

/-- Witness for C4: `num = [0]`, `den = [1000]` gives the derived entry
`(0 + 1000) / (1000 + 1000)`, that is `0.5`. -/
theorem adm_ratio_spec_witness :
    (admTransform ([0].map Val.fin) ([1000].map Val.fin)).getD 0 Val.nan =
      Val.fin ((([0] : List ℚ).getD 0 0 + 1000) / (([1000] : List ℚ).getD 0 0 + 1000)) :=
  (adm_ratio_spec [0] [1000] rfl).2.1 0 (by decide) (by norm_num)

lemma varTransform_getD : ∀ (m1 m2 : List ℚ) (i : Nat), i < m1.length →
    m1.length = m2.length →
    (varTransform (m1.map Val.fin) (m2.map Val.fin)).getD i Val.nan =
      Val.fin (m2.getD i 0 - m1.getD i 0 * m1.getD i 0) := by
  intro m1
  induction m1 with
  | nil =>
    intro m2 i hi _
    simp at hi
  | cons a m1 ih =>
    intro m2 i hi hlen
    cases m2 with
    | nil => simp at hlen
    | cons b m2 =>
      cases i with
      | zero => simp [varTransform, vmul, vsub]
      | succ j =>
        have hj : j < m1.length := Nat.lt_of_succ_lt_succ hi
        have hlen2 : m1.length = m2.length := by simpa using hlen
        simpa [varTransform] using ih m2 j hj hlen2

/-- C5: on equal-length moment channels, the variance transform produces
`secondMoment[i] - firstMoment[i]^2` entrywise; the concrete example of the
specification evaluates as claimed; and the moment extractor applies the
transform independently to the `ref` pair and the `dis` pair. -/
theorem variance_spec (m1s m2s : List ℚ) (h : m1s.length = m2s.length) :
    (varTransform (m1s.map Val.fin) (m2s.map Val.fin)).length = m1s.length
    ∧ (∀ i, i < m1s.length →
        (varTransform (m1s.map Val.fin) (m2s.map Val.fin)).getD i Val.nan =
          Val.fin (m2s.getD i 0 - m1s.getD i 0 * m1s.getD i 0))
    ∧ varTransform ([2].map Val.fin) ([5].map Val.fin) = [Val.fin 1]
    ∧ (∀ sd : List (String × List Val),
        getScores (momentDeriveVars sd) "refvar" =
          varTransform (getScores sd "ref1st") (getScores sd "ref2nd")
        ∧ getScores (momentDeriveVars sd) "disvar" =
          varTransform (getScores sd "dis1st") (getScores sd "dis2nd")) := by
  refine ⟨?_, ?_, by norm_num [varTransform, vmul, vsub], ?_⟩
  · simp [varTransform, h]
  · intro i hi
    rw [varTransform_getD m1s m2s i hi h]
  · intro sd
    constructor
    · simp only [momentDeriveVars]
      rw [getScores_setKey_ne _ _ (by decide), getScores_setKey_self]
    · simp only [momentDeriveVars]
      rw [getScores_setKey_self,
        getScores_setKey_ne _ _ (by decide), getScores_setKey_ne _ _ (by decide)]

/-- Witness for C5: `firstMoment = [2.0]`, `secondMoment = [5.0]` gives
variance entry `5 - 2 * 2 = 1`. -/
theorem variance_spec_witness :
    (varTransform ([2].map Val.fin) ([5].map Val.fin)).getD 0 Val.nan =
      Val.fin ((([5] : List ℚ).getD 0 0) - (([2] : List ℚ).getD 0 0) * (([2] : List ℚ).getD 0 0)) :=
  (variance_spec [2] [5] rfl).2.1 0 (by decide)

/-- C7: the two score-key functions produce exactly
`"{type}_{feature}_scores"` and `"{type}_{feature}_score"` (hence the same
pair always yields the same key), and on the pairs declared in the source
two different pairs never yield the same key. -/
theorem score_key_spec :
    (∀ ty af, get_scores_key ty af = ty ++ "_" ++ af ++ "_scores"
      ∧ get_score_key ty af = ty ++ "_" ++ af ++ "_score")
    ∧ (∀ p ∈ declaredPairs, ∀ q ∈ declaredPairs,
        get_scores_key p.1 p.2 = get_scores_key q.1 q.2 → p = q)
    ∧ (∀ p ∈ declaredPairs, ∀ q ∈ declaredPairs,
        get_score_key p.1 p.2 = get_score_key q.1 q.2 → p = q) :=
  ⟨fun ty af => ⟨rfl, rfl⟩, by decide, by decide⟩

/-- Witness for C7 at a declared pair: equality of the keys of
`("VMAF_feature", "adm")` with themselves forces equality of the pairs. -/
theorem score_key_spec_witness :
    (("VMAF_feature", "adm") : String × String) = ("VMAF_feature", "adm") :=
  score_key_spec.2.1 ("VMAF_feature", "adm") (by decide) ("VMAF_feature", "adm")
    (by decide) rfl

/-- C10: post-processing a dict that contains the three adm keys (as every
assembled VMAF result does) replaces exactly the `VMAF_feature_adm_scores`
entry with the derived ratio channel: the key set is unchanged and every
other key still maps to its previous sequence. -/
theorem post_process_only_adm (d : List (String × List Val)) (nums dens : List Val)
    (hn : List.lookup (get_scores_key "VMAF_feature" "adm_num") d = some nums)
    (hd : List.lookup (get_scores_key "VMAF_feature" "adm_den") d = some dens)
    (hL : nums.length = dens.length)
    (hmem : get_scores_key "VMAF_feature" "adm" ∈ d.map Prod.fst) :
    postProcessResult d =
      some (setKey d (get_scores_key "VMAF_feature" "adm") (admTransform nums dens))
    ∧ (setKey d (get_scores_key "VMAF_feature" "adm")
        (admTransform nums dens)).map Prod.fst = d.map Prod.fst
    ∧ (∀ k, k ≠ get_scores_key "VMAF_feature" "adm" →
        List.lookup k (setKey d (get_scores_key "VMAF_feature" "adm")
          (admTransform nums dens)) = List.lookup k d)
    ∧ List.lookup (get_scores_key "VMAF_feature" "adm")
        (setKey d (get_scores_key "VMAF_feature" "adm") (admTransform nums dens)) =
      some (admTransform nums dens) := by
  refine ⟨?_, map_fst_setKey d _ _ hmem, fun k hk => lookup_setKey_ne d _ hk,
    lookup_setKey_self d _ _⟩
  simp [postProcessResult, hn, hd, hL]

/-- Witness for C10 on a concrete three-key dict. -/
theorem post_process_only_adm_witness :
    postProcessResult
      [(get_scores_key "VMAF_feature" "adm", [Val.fin 1]),
       (get_scores_key "VMAF_feature" "adm_num", [Val.fin 0]),
       (get_scores_key "VMAF_feature" "adm_den", [Val.fin 0])] =
      some (setKey
        [(get_scores_key "VMAF_feature" "adm", [Val.fin 1]),
         (get_scores_key "VMAF_feature" "adm_num", [Val.fin 0]),
         (get_scores_key "VMAF_feature" "adm_den", [Val.fin 0])]
        (get_scores_key "VMAF_feature" "adm") (admTransform [Val.fin 0] [Val.fin 0])) :=
  (post_process_only_adm
    [(get_scores_key "VMAF_feature" "adm", [Val.fin 1]),
     (get_scores_key "VMAF_feature" "adm_num", [Val.fin 0]),
     (get_scores_key "VMAF_feature" "adm_den", [Val.fin 0])]
    [Val.fin 0] [Val.fin 0] (by decide) (by decide) rfl (by decide)).1

/-- C2 counterexample: on `adm_num = [0.0]`, `adm_den = [-1000.0]` (so that
`adm_den[0] + 1000 == 0`), post-processing does not fail with any error: it
succeeds and silently stores the non-finite value +inf as the derived adm
entry.  No `NumericError` is raised anywhere. -/
theorem numeric_error_counterexample :
    postProcessResult c2Dict =
      some [(get_scores_key "VMAF_feature" "adm", [Val.pinf]),
            (get_scores_key "VMAF_feature" "adm_num", [Val.fin 0]),
            (get_scores_key "VMAF_feature" "adm_den", [Val.fin (-1000)])]
    ∧ vfinite Val.pinf = false := by
  have hadm : admTransform [Val.fin 0] [Val.fin (-1000)] = [Val.pinf] := by
    norm_num [admTransform, vadd, vdiv, ADM_CONSTANT]
  have h1 : List.lookup (get_scores_key "VMAF_feature" "adm_num") c2Dict =
      some [Val.fin 0] := by decide
  have h2 : List.lookup (get_scores_key "VMAF_feature" "adm_den") c2Dict =
      some [Val.fin (-1000)] := by decide
  refine ⟨?_, rfl⟩
  simp only [postProcessResult, h1, h2, List.length_singleton, if_pos]
  rw [hadm]
  decide

/-- C2 amended: when `adm_den[i] + 1000 == 0` the ratio transform does not
fail: post-processing still succeeds, and the derived entry is the
non-finite value NaN (when `adm_num[i] + 1000 == 0` too), +inf (when
`adm_num[i] + 1000` is positive) or -inf (when negative), produced
silently.  The code has no `NumericError` mechanism. -/
theorem numeric_error_amended (nums dens : List ℚ) (h : nums.length = dens.length)
    (i : Nat) (hi : i < nums.length) (hz : dens.getD i 0 + 1000 = 0) :
    (admTransform (nums.map Val.fin) (dens.map Val.fin)).getD i Val.nan =
      (if nums.getD i 0 + 1000 = 0 then Val.nan
       else if 0 < nums.getD i 0 + 1000 then Val.pinf else Val.ninf)
    ∧ vfinite ((admTransform (nums.map Val.fin) (dens.map Val.fin)).getD i Val.nan) = false
    ∧ (∀ (d : List (String × List Val)) (ns ds : List Val),
        List.lookup (get_scores_key "VMAF_feature" "adm_num") d = some ns →
        List.lookup (get_scores_key "VMAF_feature" "adm_den") d = some ds →
        ns.length = ds.length → (postProcessResult d).isSome = true) := by
  have hz2 : dens[i]?.getD 0 + 1000 = 0 := by simpa [List.getD] using hz
  have h2 : (admTransform (nums.map Val.fin) (dens.map Val.fin)).getD i Val.nan =
      (if nums.getD i 0 + 1000 = 0 then Val.nan
       else if 0 < nums.getD i 0 + 1000 then Val.pinf else Val.ninf) := by
    rw [admTransform_getD nums dens i hi h]
    simp [vdiv, hz2, List.getD]
  refine ⟨h2, ?_, ?_⟩
  · rw [h2]
    by_cases hn : nums.getD i 0 + 1000 = 0
    · rw [if_pos hn]
      rfl
    · rw [if_neg hn]
      by_cases hp : 0 < nums.getD i 0 + 1000
      · rw [if_pos hp]
        rfl
      · rw [if_neg hp]
        rfl
  · intro d ns ds hns hds hlen
    simp [postProcessResult, hns, hds, hlen]

/-- Witness for the amended C2 at `adm_num = [0.0]`, `adm_den = [-1000.0]`:
the derived entry is +inf. -/
theorem numeric_error_amended_witness :
    (admTransform ([0].map Val.fin) ([-1000].map Val.fin)).getD 0 Val.nan =
      (if (([0] : List ℚ).getD 0 0) + 1000 = 0 then Val.nan
       else if 0 < (([0] : List ℚ).getD 0 0) + 1000 then Val.pinf else Val.ninf) :=
  (numeric_error_amended [0] [-1000] rfl 0 (by decide) (by norm_num)).1

/-! Moment-grammar lemmas. -/

lemma momentLineMatch_none {l : Line} (h : momentLineMatch l = none) :
    matchIndexed ("1stmoment").toList l = none
    ∧ matchIndexed ("2ndmoment").toList l = none := by
  cases hm1 : matchIndexed ("1stmoment").data l with
  | some p => simp [momentLineMatch, toList_eq, hm1] at h
  | none =>
    cases hm2 : matchIndexed ("2ndmoment").data l with
    | some p => simp [momentLineMatch, toList_eq, hm1, hm2] at h
    | none => exact ⟨hm1, hm2⟩

lemma momentStep_neutral {l : Line} (st : MState)
    (hh : isMomentHeader l = false) (hd : momentLineMatch l = none) :
    momentStep st l = .ok st := by
  simp only [isMomentHeader, Bool.or_eq_false_iff] at hh
  have h1 : matchIndexed ("1stmoment").data l = none := (momentLineMatch_none hd).1
  have h2 : matchIndexed ("2ndmoment").data l = none := (momentLineMatch_none hd).2
  simp [momentStep, hh.1, hh.2, h1, h2]

lemma momentStep_unset {l : Line} (st : MState) (hsec : st.sec = none)
    (hh : isMomentHeader l = false) (hm : (momentLineMatch l).isSome = true) :
    momentStep st l = .error .unsetSection := by
  simp only [isMomentHeader, Bool.or_eq_false_iff] at hh
  cases hm1 : matchIndexed ("1stmoment").data l with
  | some p =>
    obtain ⟨ds, vs⟩ := p
    simp [momentStep, hh.1, hh.2, hm1, momentData, hsec]
  | none =>
    cases hm2 : matchIndexed ("2ndmoment").data l with
    | some p =>
      obtain ⟨ds, vs⟩ := p
      simp [momentStep, hh.1, hh.2, hm1, hm2, momentData, hsec]
    | none =>
      rw [show momentLineMatch l = none by simp [momentLineMatch, toList_eq, hm1, hm2]] at hm
      exact absurd hm (by simp)

lemma momentFold_neutral : ∀ (pre : List Line) (st : MState),
    (∀ l ∈ pre, isMomentHeader l = false ∧ momentLineMatch l = none) →
    List.foldlM momentStep st pre = .ok st := by
  intro pre
  induction pre with
  | nil =>
    intro st _
    rfl
  | cons l rest ih =>
    intro st h
    obtain ⟨hh, hd⟩ := h l (List.mem_cons_self l rest)
    rw [List.foldlM_cons, momentStep_neutral st hh hd, ok_bind]
    exact ih st (fun l2 h2 => h l2 (List.mem_cons_of_mem _ h2))

/-- C8: a moment data line (`1stmoment:` / `2ndmoment:`) encountered while
`ref_or_dis` is still unset (no section-header line having occurred) makes
the whole parse fail; once a section is current, an expected-index data
line is appended to the channel formed from the current section and the
line's tag. -/
theorem moment_section_spec :
    (∀ (pre : List Line) (l : Line) (post : List Line),
      (∀ l2 ∈ pre, isMomentHeader l2 = false ∧ momentLineMatch l2 = none) →
      isMomentHeader l = false →
      (momentLineMatch l).isSome = true →
      momentParse (pre ++ l :: post) = .error .unsetSection)
    ∧ (∀ (st : MState) (s : String) (l : Line) (w : String) (i : Nat)
        (vs : List Char) (v : ℚ),
      st.sec = some s →
      isMomentHeader l = false →
      momentLineMatch l = some (w, i, vs) →
      i = getIdx st.idxs (s ++ w) →
      pyFloat vs = some v →
      momentStep st l = .ok { st with
        scores := setKey st.scores (s ++ w) (getScores st.scores (s ++ w) ++ [Val.fin v]),
        idxs := setKey st.idxs (s ++ w) (getIdx st.idxs (s ++ w) + 1) }) := by
  constructor
  · intro pre l post hpre hh hm
    rw [momentParse, List.foldlM_append, momentFold_neutral pre initMS hpre, ok_bind,
      List.foldlM_cons, momentStep_unset initMS rfl hh hm, err_bind]
  · intro st s l w i vs v hsec hh hm hidx hv
    simp only [isMomentHeader, Bool.or_eq_false_iff] at hh
    cases hm1 : matchIndexed ("1stmoment").data l with
    | some p =>
      obtain ⟨ds, vs0⟩ := p
      simp only [momentLineMatch, toList_eq, hm1, Option.some.injEq, Prod.mk.injEq] at hm
      obtain ⟨hw, hieq, hvs⟩ := hm
      subst hw
      subst hvs
      simp [momentStep, hh.1, hh.2, hm1, momentData, hsec, hieq, ← hidx, hv]
    | none =>
      cases hm2 : matchIndexed ("2ndmoment").data l with
      | some p =>
        obtain ⟨ds, vs0⟩ := p
        simp only [momentLineMatch, toList_eq, hm1, hm2, Option.some.injEq,
          Prod.mk.injEq] at hm
        obtain ⟨hw, hieq, hvs⟩ := hm
        subst hw
        subst hvs
        simp [momentStep, hh.1, hh.2, hm1, hm2, momentData, hsec, hieq, ← hidx, hv]
      | none =>
        rw [show momentLineMatch l = none by
          simp [momentLineMatch, toList_eq, hm1, hm2]] at hm
        exact absurd hm (by simp)

/-- Witness for C8: the data line `1stmoment: 0 2.0` before any section
header aborts the parse; the same line in state `ref` with expected index 0
is appended to channel `ref1st`. -/
theorem moment_section_spec_witness :
    momentParse [("1stmoment: 0 2.0").toList] = .error .unsetSection
    ∧ momentStep
        ⟨some "ref", MOMENT_ATOM_FEATURES.map (fun f => (f, [])),
          MOMENT_ATOM_FEATURES.map (fun f => (f, 0))⟩
        (("1stmoment: 0 2.0").toList) =
      .ok { (⟨some "ref", MOMENT_ATOM_FEATURES.map (fun f => (f, [])),
            MOMENT_ATOM_FEATURES.map (fun f => (f, 0))⟩ : MState) with
        scores := setKey (MOMENT_ATOM_FEATURES.map (fun f => (f, [])))
          ("ref" ++ "1st")
          (getScores (MOMENT_ATOM_FEATURES.map (fun f => (f, []))) ("ref" ++ "1st")
            ++ [Val.fin 2]),
        idxs := setKey (MOMENT_ATOM_FEATURES.map (fun f => (f, 0))) ("ref" ++ "1st")
          (getIdx (MOMENT_ATOM_FEATURES.map (fun f => (f, 0))) ("ref" ++ "1st") + 1) } :=
  ⟨moment_section_spec.1 [] (("1stmoment: 0 2.0").toList) []
      (fun l2 h2 => absurd h2 (List.not_mem_nil l2)) (by decide) (by decide),
   moment_section_spec.2
      ⟨some "ref", MOMENT_ATOM_FEATURES.map (fun f => (f, [])),
        MOMENT_ATOM_FEATURES.map (fun f => (f, 0))⟩
      "ref" (("1stmoment: 0 2.0").toList) "1st" 0 (("2.0").toList) 2 rfl
      (by decide) (by decide) (by decide) (by with_unfolding_all rfl)⟩

/-! Round-trip lemmas: rendering an index and parsing it back. -/

lemma digitChar_isDig {d : Nat} (h : d < 10) : isDig (digitChar d) = true := by
  interval_cases d <;> decide

lemma digitVal_digitChar {d : Nat} (h : d < 10) : digitVal (digitChar d) = d := by
  interval_cases d <;> decide

lemma renderNat_all_dig (n : Nat) : ∀ c ∈ renderNat n, isDig c = true := by
  intro c hc
  rw [renderNat] at hc
  by_cases h : n = 0
  · rw [if_pos h] at hc
    simp at hc
    subst hc
    decide
  · rw [if_neg h] at hc
    simp only [List.mem_map, List.mem_reverse] at hc
    obtain ⟨d, hd, rfl⟩ := hc
    exact digitChar_isDig (Nat.digits_lt_base (by norm_num) hd)

lemma renderNat_ne_nil (n : Nat) : renderNat n ≠ [] := by
  rw [renderNat]
  by_cases h : n = 0
  · simp [h]
  · rw [if_neg h]
    simp [Nat.digits_ne_nil_iff_ne_zero.mpr h]

lemma natOfDigits_aux : ∀ (L : List Nat) (a : Nat), (∀ d ∈ L, d < 10) →
    List.foldl (fun n c => 10 * n + digitVal c) a (L.map digitChar) =
      List.foldl (fun n d => 10 * n + d) a L := by
  intro L
  induction L with
  | nil =>
    intro a _
    rfl
  | cons d L ih =>
    intro a h
    simp only [List.map_cons, List.foldl_cons]
    rw [digitVal_digitChar (h d (List.mem_cons_self d L))]
    exact ih _ (fun d2 h2 => h d2 (List.mem_cons_of_mem _ h2))

lemma foldl_mul_add_ofDigits : ∀ L : List Nat,
    List.foldl (fun n d => 10 * n + d) 0 L.reverse = Nat.ofDigits 10 L := by
  intro L
  induction L with
  | nil => simp [Nat.ofDigits]
  | cons d L ih =>
    rw [List.reverse_cons, List.foldl_append]
    simp only [List.foldl_cons, List.foldl_nil]
    rw [ih, Nat.ofDigits_cons]
    omega

lemma natOfDigits_renderNat (n : Nat) : natOfDigits (renderNat n) = n := by
  rw [renderNat]
  by_cases h : n = 0
  · rw [if_pos h, h]
    decide
  · rw [if_neg h, natOfDigits,
      natOfDigits_aux _ 0 (fun d hd => Nat.digits_lt_base (by norm_num)
        (List.mem_reverse.mp hd)),
      foldl_mul_add_ofDigits]
    exact Nat.ofDigits_digits 10 n

lemma takeWhile_append_of_all {p : Char → Bool} : ∀ l : List Char,
    (∀ c ∈ l, p c = true) → ∀ c : Char, p c = false → ∀ r : List Char,
    (l ++ c :: r).takeWhile p = l ∧ (l ++ c :: r).dropWhile p = c :: r := by
  intro l
  induction l with
  | nil =>
    intro _ c hc r
    simp [List.takeWhile_cons, List.dropWhile_cons, hc]
  | cons a l ih =>
    intro hall c hc r
    have ha := hall a (List.mem_cons_self a l)
    obtain ⟨h1, h2⟩ := ih (fun x hx => hall x (List.mem_cons_of_mem _ hx)) c hc r
    simp [List.takeWhile_cons, List.dropWhile_cons, ha, h1, h2]

lemma takeWhile_eq_self_of_all {p : Char → Bool} : ∀ l : List Char,
    (∀ c ∈ l, p c = true) → l.takeWhile p = l := by
  intro l
  induction l with
  | nil =>
    intro _
    rfl
  | cons a l ih =>
    intro hall
    simp [List.takeWhile_cons, hall a (List.mem_cons_self a l),
      ih (fun x hx => hall x (List.mem_cons_of_mem _ hx))]

lemma pyFloat_ne_nil {w : List Char} (h : (pyFloat w).isSome = true) : w ≠ [] := by
  intro hw
  subst hw
  exact absurd h (by decide)

lemma matchIndexed_psnrLine (i : Nat) (w : List Char)
    (hall : ∀ c ∈ w, isValChar c = true) (hne : w ≠ []) :
    matchIndexed ("psnr").toList (psnrLine i w) = some (renderNat i, w) := by
  have hpl : psnrLine i w = (("psnr").toList ++ [':', ' ']) ++ (renderNat i ++ ' ' :: w) := by
    have hps : ("psnr: ").toList = ("psnr").toList ++ [':', ' '] := by decide
    rw [psnrLine, hps, List.append_assoc]
  obtain ⟨ht, hd⟩ := takeWhile_append_of_all (renderNat i) (renderNat_all_dig i)
    ' ' (by decide) w
  have hrne : (renderNat i).isEmpty = false := by
    cases hr : renderNat i with
    | nil => exact absurd hr (renderNat_ne_nil i)
    | cons a r => rfl
  have hwne : w.isEmpty = false := by
    cases hw : w with
    | nil => exact absurd hw hne
    | cons a r => rfl
  simp only [matchIndexed, hpl, dropPrefixL_append, ht, hd, hrne,
    takeWhile_eq_self_of_all w hall, hwne, Bool.false_eq_true, if_false]

lemma psnr_gen_fold : ∀ (ws : List (List Char)) (k : Nat) (acc : List Val),
    (∀ w ∈ ws, (∀ c ∈ w, isValChar c = true) ∧ (pyFloat w).isSome = true) →
    List.foldlM psnrStep (acc, k) (genPsnrLines k ws) =
      .ok (acc ++ ws.map (fun w => Val.fin ((pyFloat w).getD 0)), k + ws.length) := by
  intro ws
  induction ws with
  | nil =>
    intro k acc _
    simp only [genPsnrLines, List.foldlM_nil, List.map_nil, List.append_nil,
      List.length_nil, Nat.add_zero]
    rfl
  | cons w ws ih =>
    intro k acc h
    obtain ⟨hall, hsome⟩ := h w (List.mem_cons_self w ws)
    obtain ⟨v, hv⟩ := Option.isSome_iff_exists.mp hsome
    have hm : matchIndexed ("psnr").data (psnrLine k w) = some (renderNat k, w) :=
      matchIndexed_psnrLine k w hall (pyFloat_ne_nil hsome)
    have hstep : psnrStep (acc, k) (psnrLine k w) = .ok (acc ++ [Val.fin v], k + 1) := by
      simp [psnrStep, hm, natOfDigits_renderNat, hv]
    rw [genPsnrLines, List.foldlM_cons, hstep, ok_bind,
      ih (k + 1) (acc ++ [Val.fin v]) (fun w2 h2 => h w2 (List.mem_cons_of_mem _ h2))]
    simp only [List.map_cons, hv, Option.getD_some, List.append_assoc,
      List.singleton_append, List.length_cons]
    rw [show k + 1 + ws.length = k + (ws.length + 1) from by omega]

/-- C6: parsing the synthetic log consisting exactly of the well-formed
indexed data lines `psnr: i V[i]` for `i = 0..L-1` (each value a
well-formed float literal) succeeds and yields the raw channel sequence V
itself (and final counter L). -/
theorem psnr_round_trip (ws : List (List Char))
    (h : ∀ w ∈ ws, (∀ c ∈ w, isValChar c = true) ∧ (pyFloat w).isSome = true) :
    psnrParseScores (genPsnrLines 0 ws) =
      .ok (ws.map (fun w => Val.fin ((pyFloat w).getD 0)), ws.length) := by
  have hfold := psnr_gen_fold ws 0 [] h
  simpa [psnrParseScores] using hfold

/-- Witness for C6 with the one-value sequence `[2.5]`. -/
theorem psnr_round_trip_witness :
    psnrParseScores (genPsnrLines 0 [("2.5").toList]) =
      .ok ([("2.5").toList].map (fun w => Val.fin ((pyFloat w).getD 0)), 1) :=
  psnr_round_trip [("2.5").toList] (by decide)

/-! Supporting facts: every successfully assembled VMAF result satisfies
the hypotheses under which post-processing is analyzed. -/

lemma assembleResult_ok_parts {ty f0 : String} {rest : List String}
    {sd d : List (String × List Val)}
    (h : assembleResult ty (f0 :: rest) sd = .ok d) :
    d = buildDict ty (f0 :: rest) sd
    ∧ ∀ g ∈ rest, (getScores sd g).length = (getScores sd f0).length := by
  by_cases h0 : (getScores sd f0).length = 0
  · simp [assembleResult, h0] at h
  · simp only [assembleResult, if_neg h0] at h
    cases hc : checkRest sd (getScores sd f0).length rest with
    | error e =>
      rw [hc] at h
      exact absurd h (by simp)
    | ok u =>
      rw [hc] at h
      refine ⟨?_, (checkRest_ok_iff sd _ rest).mp hc⟩
      injection h with h2
      exact h2.symm

lemma lookup_buildDict {ty : String} : ∀ (feats : List String)
    (sd : List (String × List Val)) (af : String), af ∈ feats →
    (∀ g ∈ feats, get_scores_key ty g = get_scores_key ty af → g = af) →
    List.lookup (get_scores_key ty af) (buildDict ty feats sd) =
      some (getScores sd af) := by
  intro feats
  induction feats with
  | nil =>
    intro sd af haf _
    simp at haf
  | cons g rest ih =>
    intro sd af haf hinj
    by_cases hg : g = af
    · subst hg
      simp [buildDict, List.lookup]
    · have hkey : get_scores_key ty g ≠ get_scores_key ty af := by
        intro hk
        exact hg (hinj g (List.mem_cons_self g rest) hk)
      have hb : (get_scores_key ty af == get_scores_key ty g) = false :=
        beq_eq_false_iff_ne.mpr (Ne.symm hkey)
      have haf2 : af ∈ rest := by
        rcases List.mem_cons.mp haf with h2 | h2
        · exact absurd h2.symm hg
        · exact h2
      simp only [buildDict, List.map_cons, List.lookup, hb]
      exact ih sd af haf2 (fun g2 hg2 => hinj g2 (List.mem_cons_of_mem _ hg2))

lemma vmaf_assembled_post_hyps {lines : List Line} {d : List (String × List Val)}
    (h : vmafGetFeatureScores lines = .ok d) :
    ∃ nums dens,
      List.lookup (get_scores_key "VMAF_feature" "adm_num") d = some nums
      ∧ List.lookup (get_scores_key "VMAF_feature" "adm_den") d = some dens
      ∧ nums.length = dens.length
      ∧ get_scores_key "VMAF_feature" "adm" ∈ d.map Prod.fst := by
  rw [vmafGetFeatureScores] at h
  cases hp : parseLines VMAF_ATOM_FEATURES lines with
  | error e =>
    rw [hp] at h
    exact absurd h (by simp)
  | ok st =>
    rw [hp] at h
    have h2 : assembleResult "VMAF_feature"
        ("vif" :: ["adm", "ansnr", "motion", "vif_num", "vif_den", "adm_num", "adm_den",
          "anpsnr"]) st.scores = .ok d := h
    obtain ⟨hd, hlen⟩ := assembleResult_ok_parts h2
    subst hd
    refine ⟨getScores st.scores "adm_num", getScores st.scores "adm_den", ?_, ?_, ?_, ?_⟩
    · exact lookup_buildDict VMAF_ATOM_FEATURES st.scores "adm_num" (by decide) (by decide)
    · exact lookup_buildDict VMAF_ATOM_FEATURES st.scores "adm_den" (by decide) (by decide)
    · rw [hlen "adm_num" (by decide), hlen "adm_den" (by decide)]
    · simp only [buildDict, List.map_map]
      have hmem : "adm" ∈ VMAF_ATOM_FEATURES := by decide
      exact List.mem_map.mpr ⟨"adm", hmem, rfl⟩

end VmafFE
